import Mathlib

/-!
Verification of the event-booking validation/normalization pipeline.

The development shallowly embeds the schema-layer logic of the repository:

* `generateSlug`, `normalizeDate`, `normalizeTime` — the three normalizer
  functions of `event.model.ts`;
* the `pre('save')` hook of the Event schema (slug generation, date/time
  normalization keyed on per-field modification flags);
* the Booking schema (email canonicalization and validation) and its
  `pre('save')` referential-integrity hook;
* a store model in which a save either commits the fully validated record
  or reports an error and leaves the collection untouched, matching the
  all-or-nothing semantics of a single mongoose document insert.

Strings are handled through their underlying `List Char`.  Character
classes of the source regexes are expressed through code points
(`Char.toNat`): `\w` is `[A-Za-z0-9_]`, `\s` is modelled by the ASCII
whitespace subset of the JavaScript class, `\d` is `[0-9]`.  The
JavaScript string primitives used by the source (`trim`, `toLowerCase`,
`toUpperCase`) are modelled on the same ASCII fragment.
-/

/-! ## Character classes -/

/-- The regex class `\d`, i.e. `[0-9]`. -/
def isDig (c : Char) : Bool := decide (48 ≤ c.toNat ∧ c.toNat ≤ 57)

/-- Numeric value of a digit character (`parseInt` on one digit). -/
def digVal (c : Char) : Nat := c.toNat - 48

/-- ASCII uppercase letters `[A-Z]`. -/
def isUpChar (c : Char) : Bool := decide (65 ≤ c.toNat ∧ c.toNat ≤ 90)

/-- ASCII lowercase letters `[a-z]`. -/
def isLowChar (c : Char) : Bool := decide (97 ≤ c.toNat ∧ c.toNat ≤ 122)

/-- The regex class `\s`, modelled by its ASCII subset:
tab, line feed, vertical tab, form feed, carriage return, space. -/
def jsWs (c : Char) : Bool := [9, 10, 11, 12, 13, 32].contains c.toNat

/-- The regex class `\w`, i.e. `[A-Za-z0-9_]`. -/
def wordChar (c : Char) : Bool :=
  isLowChar c || isUpChar c || isDig c || decide (c.toNat = 95)

/-- Model of `String.prototype.toLowerCase`, on the ASCII fragment. -/
def jsLower (c : Char) : Char :=
  if isUpChar c then Char.ofNat (c.toNat + 32) else c

/-- Model of `String.prototype.toUpperCase`, on the ASCII fragment. -/
def jsUpper (c : Char) : Char :=
  if isLowChar c then Char.ofNat (c.toNat - 32) else c

/-- Remove a trailing run of characters satisfying `p`
(the mirror image of `List.dropWhile`). -/
def dropTrail (p : Char → Bool) (l : List Char) : List Char :=
  (l.reverse.dropWhile p).reverse

/-- Model of `String.prototype.trim` (with `\s` as in `jsWs`). -/
def trimWs (l : List Char) : List Char :=
  dropTrail jsWs (l.dropWhile jsWs)

/-! ## Slug Normalizer (`generateSlug`, event.model.ts lines 30–38) -/

/-- The replacement `.replace(/\s+/g, '-')`: each maximal run of
whitespace becomes a single hyphen. -/
def collapseWs : List Char → List Char
  | [] => []
  | [c] => if jsWs c then ['-'] else [c]
  | c :: d :: rest =>
    if jsWs c then
      if jsWs d then collapseWs (d :: rest) else '-' :: collapseWs (d :: rest)
    else c :: collapseWs (d :: rest)

/-- The replacement of the global regex `--+` with `-`: each maximal run
of two or more hyphens becomes a single hyphen. -/
def collapseHyph : List Char → List Char
  | [] => []
  | [c] => [c]
  | c :: d :: rest =>
    if c == '-' && d == '-' then collapseHyph (d :: rest)
    else c :: collapseHyph (d :: rest)

/-- Characters kept by `.replace(/[^\w\s-]/g, '')`. -/
def keepChar (c : Char) : Bool := wordChar c || jsWs c || c == '-'

/-- Hyphen test for `.replace(/^-+|-+$/g, '')`. -/
def isHyph (c : Char) : Bool := c == '-'

/-- The replacement `.replace(/^-+|-+$/g, '')`: strip the leading and the
trailing run of hyphens. -/
def stripHyph (l : List Char) : List Char :=
  dropTrail isHyph (l.dropWhile isHyph)

/-- The slug pipeline on the character list:
lowercase, trim, remove `[^\w\s-]`, collapse `\s+` to `-`,
collapse `--+` to `-`, strip `^-+|-+$`. -/
def slugList (l : List Char) : List Char :=
  stripHyph (collapseHyph (collapseWs ((trimWs (l.map jsLower)).filter keepChar)))

/-- The function `generateSlug` (event.model.ts lines 30–38). -/
def generateSlug (title : String) : String := ⟨slugList title.data⟩

/-! ## Date/Time Normalizer (event.model.ts lines 44–85) -/

/-- The group `([0-5][0-9])` of `time24Regex` (minutes). -/
def minOk (m1 m2 : Char) : Bool :=
  decide ((48 ≤ m1.toNat ∧ m1.toNat ≤ 53) ∧ (48 ≤ m2.toNat ∧ m2.toNat ≤ 57))

/-- The group `([0-1]?[0-9]|2[0-3])` of `time24Regex` restricted to two
digits, i.e. `[0-1][0-9]|2[0-3]` (code points: `'0'` = 48, `'1'` = 49,
`'2'` = 50, `'3'` = 51, `'9'` = 57). -/
def hhOk (h1 h2 : Char) : Bool :=
  decide (((48 ≤ h1.toNat ∧ h1.toNat ≤ 49) ∧ (48 ≤ h2.toNat ∧ h2.toNat ≤ 57)) ∨
    (h1.toNat = 50 ∧ (48 ≤ h2.toNat ∧ h2.toNat ≤ 51)))

/-- The anchored test `time24Regex.test`, i.e.
`/^([0-1]?[0-9]|2[0-3]):([0-5][0-9])$/`: either `H:MM` with a single
digit hour or `HH:MM` with a two-digit hour in `00`–`23`. -/
def matches24 : List Char → Bool
  | [h, c, m1, m2] => c == ':' && isDig h && minOk m1 m2
  | [h1, h2, c, m1, m2] => c == ':' && hhOk h1 h2 && minOk m1 m2
  | _ => false

/-- Continuation of `time12Regex` after the hour digits:
`:(\d{2})\s*(AM|PM)$` (the input has already been uppercased).
Returns `(hours, minute chars, PM?)`. -/
def match12Tail (h : Nat) : List Char → Option (Nat × Char × Char × Bool)
  | c :: m1 :: m2 :: rest =>
    if c == ':' && isDig m1 && isDig m2 then
      if rest.dropWhile jsWs == ['A', 'M'] then some (h, m1, m2, false)
      else if rest.dropWhile jsWs == ['P', 'M'] then some (h, m1, m2, true)
      else none
    else none
  | _ => none

/-- The anchored match of `time12Regex`,
`/^(\d{1,2}):(\d{2})\s*(AM|PM)$/i`, with `parseInt` already applied to
the hour group.  (The greedy two-digit hour needs no backtracking: when
the first two characters are digits, a one-digit hour would have to be
followed by `:`, which the second digit is not.) -/
def match12 : List Char → Option (Nat × Char × Char × Bool)
  | c1 :: c2 :: rest =>
    if isDig c1 then
      if isDig c2 then match12Tail (10 * digVal c1 + digVal c2) rest
      else match12Tail (digVal c1) (c2 :: rest)
    else none
  | _ => none

/-- Decimal digit characters of `n` as produced by `Number.toString()`,
for `n < 1000` (the hours computed by `normalizeTime` are at most
`99 + 12`). -/
def natDigits (n : Nat) : List Char :=
  if n < 10 then [Nat.digitChar n]
  else if n < 100 then [Nat.digitChar (n / 10), Nat.digitChar (n % 10)]
  else [Nat.digitChar (n / 100), Nat.digitChar (n / 10 % 10), Nat.digitChar (n % 10)]

/-- Model of `hours.toString().padStart(2, '0')`. -/
def padTwo (n : Nat) : List Char :=
  List.replicate (2 - (natDigits n).length) '0' ++ natDigits n

/-- The cleaning step of `normalizeTime`: `timeStr.trim().toUpperCase()`. -/
def cleanTime (s : String) : List Char := (trimWs s.data).map jsUpper

/-- The function `normalizeTime` (event.model.ts lines 56–85). -/
def normalizeTime (timeStr : String) : Except String String :=
  let cleaned := cleanTime timeStr
  if matches24 cleaned then .ok ⟨cleaned⟩
  else
    match match12 cleaned with
    | some (h, m1, m2, pm) =>
      let hours := if pm && h ≠ 12 then h + 12
                   else if !pm && h = 12 then 0 else h
      .ok ⟨padTwo hours ++ ':' :: [m1, m2]⟩
    | none => .error "Invalid time format. Use HH:MM or HH:MM AM/PM"

/-- Leap-year rule of the proleptic Gregorian calendar used by
`Date`. -/
def isLeapYear (y : Nat) : Bool :=
  (y % 4 == 0 && y % 100 != 0) || (y % 400 == 0)

/-- Number of days of month `m` (1–12) of year `y`. -/
def daysInMonth (y m : Nat) : Nat :=
  if m = 2 then (if isLeapYear y then 29 else 28)
  else if m = 4 ∨ m = 6 ∨ m = 9 ∨ m = 11 then 30
  else 31

/-- Modelled from the spec: the ISO `YYYY-MM-DD` case of the
general-purpose date parsing performed by `new Date(dateStr)` (the host
parser is not part of the repository).  Out-of-range month or day yields
an invalid date, per the spec's "fails … when the parsed result is not a
valid calendar date". -/
def parseIsoDate (l : List Char) : Option (Nat × Nat × Nat) :=
  match l with
  | [y1, y2, y3, y4, s1, a1, a2, s2, b1, b2] =>
    if s1 == '-' && s2 == '-' && isDig y1 && isDig y2 && isDig y3 && isDig y4 &&
        isDig a1 && isDig a2 && isDig b1 && isDig b2 then
      let y := 1000 * digVal y1 + 100 * digVal y2 + 10 * digVal y3 + digVal y4
      let mo := 10 * digVal a1 + digVal a2
      let d := 10 * digVal b1 + digVal b2
      if 1 ≤ mo ∧ mo ≤ 12 ∧ 1 ≤ d ∧ d ≤ daysInMonth y mo then some (y, mo, d)
      else none
    else none
  | _ => none

/-- English month names recognised by the host date parser. -/
def monthNames : List (List Char × Nat) :=
  [("January".data, 1), ("February".data, 2), ("March".data, 3),
   ("April".data, 4), ("May".data, 5), ("June".data, 6),
   ("July".data, 7), ("August".data, 8), ("September".data, 9),
   ("October".data, 10), ("November".data, 11), ("December".data, 12)]

/-- Modelled from the spec: trailing part `", YYYY"` of the long date
format `MonthName D[D], YYYY`. -/
def parseYearPart (mo d : Nat) : List Char → Option (Nat × Nat × Nat)
  | [c1, c2, y1, y2, y3, y4] =>
    if c1 == ',' && c2 == ' ' && isDig y1 && isDig y2 && isDig y3 && isDig y4 then
      let y := 1000 * digVal y1 + 100 * digVal y2 + 10 * digVal y3 + digVal y4
      if 1 ≤ d ∧ d ≤ daysInMonth y mo then some (y, mo, d) else none
    else none
  | _ => none

/-- Modelled from the spec: day-of-month digits of the long date
format. -/
def parseAfterMonth (mo : Nat) : List Char → Option (Nat × Nat × Nat)
  | d1 :: rest =>
    if isDig d1 then
      match rest with
      | d2 :: rest2 =>
        if isDig d2 then parseYearPart mo (10 * digVal d1 + digVal d2) rest2
        else parseYearPart mo (digVal d1) rest
      | [] => none
    else none
  | [] => none

/-- Modelled from the spec: try each month name as the head of the long
date format `MonthName D[D], YYYY`. -/
def findMonth : List (List Char × Nat) → List Char → Option (Nat × Nat × Nat)
  | [], _ => none
  | (name, mo) :: ms, l =>
    if l.take name.length == name && (l.drop name.length).head? == some ' ' then
      parseAfterMonth mo (l.drop (name.length + 1))
    else findMonth ms l

/-- Modelled from the spec: the host's general-purpose date parser
(`new Date(dateStr)` followed by validity and UTC-date extraction), which
is not part of the repository.  It accepts the ISO calendar-date format
and the long format `MonthName D[D], YYYY`, rejecting invalid calendar
dates; the result is the UTC calendar date `(year, month, day)`. -/
def jsParseDate (s : String) : Option (Nat × Nat × Nat) :=
  match parseIsoDate s.data with
  | some r => some r
  | none => findMonth monthNames s.data

/-- Two-digit zero-padded decimal (month/day part of `toISOString`). -/
def pad2 (n : Nat) : List Char :=
  [Nat.digitChar (n / 10 % 10), Nat.digitChar (n % 10)]

/-- Four-digit zero-padded decimal (year part of `toISOString`, faithful
for years up to 9999). -/
def pad4 (n : Nat) : List Char :=
  [Nat.digitChar (n / 1000 % 10), Nat.digitChar (n / 100 % 10),
   Nat.digitChar (n / 10 % 10), Nat.digitChar (n % 10)]

/-- The `YYYY-MM-DD` part of `toISOString` (`.split('T')[0]`). -/
def formatIsoDate (y m d : Nat) : List Char :=
  pad4 y ++ '-' :: (pad2 m ++ '-' :: pad2 d)

/-- The function `normalizeDate` (event.model.ts lines 44–50), over the modelled host
parser. -/
def normalizeDate (dateStr : String) : Except String String :=
  match jsParseDate dateStr with
  | none => .error "Invalid date format"
  | some (y, m, d) => .ok ⟨formatIsoDate y m d⟩

/-! ## Event schema and its `pre('save')` hook (event.model.ts lines 87–205) -/

/-- The Event fields involved in the claims (title, derived slug,
description, date, time); the remaining schema fields do not interact
with the hook. -/
structure EventRec where
  title : String
  slug : String
  description : String
  date : String
  time : String
deriving DecidableEq

/-- The length-bound field validators of the Event schema that the
claims exercise (`minlength`/`maxlength` on title, `minlength` on
description).  Mongoose runs document validation before the user
`pre('save')` hook. -/
def validateEvent (doc : EventRec) : Except String Unit :=
  if doc.title.length < 3 then .error "Title must be at least 3 characters"
  else if 200 < doc.title.length then .error "Title cannot exceed 200 characters"
  else if doc.description.length < 10 then .error "Description must be at least 10 characters"
  else .ok ()

/-- The Event `pre('save')` hook (lines 180–205): regenerate the slug
when the title is modified; normalize date and time when the respective
field is modified, aborting on the first normalization error. -/
def eventPreSaveHook (doc : EventRec) (mTitle mDate mTime : Bool) :
    Except String EventRec :=
  let doc1 := if mTitle then { doc with slug := generateSlug doc.title } else doc
  match (if mDate then normalizeDate doc1.date else .ok doc1.date) with
  | .error e => .error e
  | .ok newDate =>
    match (if mTime then normalizeTime doc1.time else .ok doc1.time) with
    | .error e => .error e
    | .ok newTime => .ok { doc1 with date := newDate, time := newTime }

/-- Model of `document.save()` for an Event over a store modelled as the list of
persisted records: validation, then the hook, then — only on success —
the single-document insert.  On any error the collection is returned
unchanged. -/
def saveEvent (store : List EventRec) (doc : EventRec)
    (mTitle mDate mTime : Bool) : List EventRec × Option String :=
  match validateEvent doc with
  | .error e => (store, some e)
  | .ok _ =>
    match eventPreSaveHook doc mTitle mDate mTime with
    | .error e => (store, some e)
    | .ok d => (store ++ [d], none)

/-! ## Booking schema and its `pre('save')` hook (booking.model.ts) -/

/-- The complement class `[^\s@]` of `emailRegex`. -/
def atomChar (c : Char) : Bool := !jsWs c && !(c == '@')

/-- Dot test used below for the domain part of `emailRegex`:
is there a `'.'` at a position that has at least one character before it
and at least one after it? -/
def midDot : List Char → Bool
  | _ :: d :: c :: rest => d == '.' || midDot (d :: c :: rest)
  | _ => false

/-- The anchored test `emailRegex.test`, i.e.
`/^[^\s@]+@[^\s@]+\.[^\s@]+$/` (booking.model.ts line 19): a nonempty
run of `[^\s@]`, one `@`, then a nonempty `[^\s@]` run, a dot and
another nonempty `[^\s@]` run. -/
def emailTest (l : List Char) : Bool :=
  match l.dropWhile atomChar with
  | c :: rest =>
    c == '@' && !(l.takeWhile atomChar).isEmpty && rest.all atomChar && midDot rest
  | [] => false

/-- The `lowercase: true` and `trim: true` setters of the email path. -/
def canonEmail (e : String) : String := ⟨(trimWs e.data).map jsLower⟩

/-- Input to a Booking write: `required` fields are `Option`s so that a
missing value can be expressed. -/
structure BookingInput where
  eventId : Option Nat
  email : Option String
deriving DecidableEq

/-- A persisted Booking record (the `ObjectId` reference is modelled as
a number). -/
structure BookingRec where
  eventId : Nat
  email : String
deriving DecidableEq

/-- Document validation of the Booking schema: `required` on `eventId`
and `email`, then the `emailRegex` validator on the canonicalized
email. -/
def validateBooking (b : BookingInput) : Except String BookingRec :=
  match b.eventId with
  | none => .error "Event ID is required"
  | some eid =>
    match b.email with
    | none => .error "Email is required"
    | some e =>
      let e' := canonEmail e
      if emailTest e'.data then .ok ⟨eid, e'⟩
      else .error "Please provide a valid email address"

/-- The Booking `pre('save')` hook (booking.model.ts lines 48–57): only
when the document is new or `eventId` is modified, a point lookup of the
Event store by id; a missing Event aborts the save.  The second
component counts the `findById` lookups performed (0 or 1). -/
def bookingRefCheck (events : List Nat) (eid : Nat) (isNew mEventId : Bool) :
    Except String Unit × Nat :=
  if isNew || mEventId then
    if events.contains eid then (.ok (), 1)
    else (.error ("Event with ID " ++ toString eid ++ " does not exist"), 1)
  else (.ok (), 0)

/-- Model of `document.save()` for a Booking: validation, the referential hook,
then — only on success — the insert.  Returns the resulting Booking
collection, the error if any, and the number of Event-store lookups
performed. -/
def saveBooking (events : List Nat) (bookings : List BookingRec)
    (b : BookingInput) (isNew mEventId : Bool) :
    List BookingRec × Option String × Nat :=
  match validateBooking b with
  | .error e => (bookings, some e, 0)
  | .ok br =>
    match bookingRefCheck events br.eventId isNew mEventId with
    | (.error e, n) => (bookings, some e, n)
    | (.ok _, n) => (bookings ++ [br], none, n)

/-! ## Predicates written from the spec's words
(used to state the claims, never as the embedded code) -/

/-- The 24-hour pattern of the spec's words: `H[H]:MM` with hour in
`[0,23]` and minute in `[0,59]`. -/
def sem24 (l : List Char) : Prop :=
  (∃ h m1 m2, l = [h, ':', m1, m2] ∧ isDig h = true ∧ isDig m1 = true ∧
    isDig m2 = true ∧ digVal h ≤ 23 ∧ 10 * digVal m1 + digVal m2 ≤ 59) ∨
  (∃ h1 h2 m1 m2, l = [h1, h2, ':', m1, m2] ∧ isDig h1 = true ∧ isDig h2 = true ∧
    isDig m1 = true ∧ isDig m2 = true ∧
    10 * digVal h1 + digVal h2 ≤ 23 ∧ 10 * digVal m1 + digVal m2 ≤ 59)

/-- The email shape of the spec's words: `local@domain.tld`, no
whitespace anywhere, one `@` with nonempty local part, and a dot inside
the domain with nonempty parts on both sides. -/
def semEmail (l : List Char) : Prop :=
  ∃ a rest, l = a ++ '@' :: rest ∧ a ≠ [] ∧
    (∀ c ∈ a, atomChar c = true) ∧ (∀ c ∈ rest, atomChar c = true) ∧
    (∃ b c2, rest = b ++ '.' :: c2 ∧ b ≠ [] ∧ c2 ≠ [])

/-- The canonical 24-hour `HH:MM` time of the spec's words: exactly five
characters, two-digit zero-padded hour in `[0,23]`, minute in
`[0,59]`. -/
def specCanonicalHHMM : List Char → Bool
  | [h1, h2, c, m1, m2] =>
    c == ':' && isDig h1 && isDig h2 && isDig m1 && isDig m2 &&
    decide (10 * digVal h1 + digVal h2 ≤ 23) &&
    decide (10 * digVal m1 + digVal m2 ≤ 59)
  | _ => false

/-- Shape `YYYY-MM-DD`: four digits, hyphen, two digits, hyphen, two
digits. -/
def isoDateShape : List Char → Bool
  | [y1, y2, y3, y4, s1, a1, a2, s2, b1, b2] =>
    s1 == '-' && s2 == '-' && isDig y1 && isDig y2 && isDig y3 && isDig y4 &&
    isDig a1 && isDig a2 && isDig b1 && isDig b2
  | _ => false

/-- Shape actually guaranteed for a stored time: a one- to three-digit
hour, `:`, and two digits. -/
def looseTimeShape : List Char → Bool
  | [a, c, m1, m2] => c == ':' && isDig a && isDig m1 && isDig m2
  | [a, b, c, m1, m2] => c == ':' && isDig a && isDig b && isDig m1 && isDig m2
  | [a, b, e, c, m1, m2] =>
    c == ':' && isDig a && isDig b && isDig e && isDig m1 && isDig m2
  | _ => false

/-- The relation "no two adjacent hyphens". -/
def noDblHyph (a b : Char) : Prop := ¬(a = '-' ∧ b = '-')

/-- The output characterization of `generateSlug` claimed by the spec:
only lowercase word-characters and single hyphens, no leading or
trailing hyphen. -/
def slugOk (l : List Char) : Prop :=
  (∀ c ∈ l, (wordChar c = true ∧ isUpChar c = false) ∨ c = '-') ∧
  List.Chain' noDblHyph l ∧
  (∀ c, l.head? = some c → c ≠ '-') ∧
  (∀ c, l.getLast? = some c → c ≠ '-')

/-! ## Character-level lemmas -/

lemma toNat_ofNat_lt {n : Nat} (h : n < 55296) : (Char.ofNat n).toNat = n := by
  rw [Char.ofNat, dif_pos (Or.inl h)]
  simp [Char.ofNatAux, Char.toNat, UInt32.ofNat', UInt32.toNat, BitVec.toNat_ofNatLt]

lemma isUpChar_jsLower (c : Char) : isUpChar (jsLower c) = false := by
  unfold jsLower
  split
  · next hc =>
    have hb : 65 ≤ c.toNat ∧ c.toNat ≤ 90 := of_decide_eq_true hc
    have ht : (Char.ofNat (c.toNat + 32)).toNat = c.toNat + 32 :=
      toNat_ofNat_lt (by omega)
    simp only [isUpChar, ht, decide_eq_false_iff_not]
    omega
  · next hc => exact Bool.not_eq_true _ ▸ hc

lemma jsWs_eq_false_of_wordChar {c : Char} (h : wordChar c = true) :
    jsWs c = false := by
  simp only [wordChar, isLowChar, isUpChar, isDig, Bool.or_eq_true,
    decide_eq_true_eq] at h
  simp only [jsWs, List.contains, List.elem_eq_mem, List.mem_cons,
    List.not_mem_nil, or_false, decide_eq_false_iff_not, not_or]
  omega

lemma jsLower_eq_self {c : Char} (h : isUpChar c = false) : jsLower c = c := by
  simp [jsLower, h]

/-! ## Generic list lemmas for the slug pipeline -/

lemma mem_of_mem_dropWhile {p : Char → Bool} {l : List Char} {c : Char}
    (h : c ∈ l.dropWhile p) : c ∈ l := by
  induction l with
  | nil => simp at h
  | cons a t ih =>
    rw [List.dropWhile_cons] at h
    by_cases hp : p a = true
    · simp only [hp, if_true] at h
      exact List.mem_cons_of_mem a (ih h)
    · simp only [hp, if_false] at h
      exact h

lemma head?_dropWhile_not {p : Char → Bool} {l : List Char} {c : Char}
    (h : (l.dropWhile p).head? = some c) : p c = false := by
  induction l with
  | nil => simp at h
  | cons a t ih =>
    rw [List.dropWhile_cons] at h
    by_cases hp : p a = true
    · simp only [hp, if_true] at h
      exact ih h
    · have hp' : p a = false := Bool.not_eq_true _ ▸ hp
      rw [hp'] at h
      simp only [Bool.false_eq_true, if_false, List.head?_cons, Option.some.injEq] at h
      subst h
      exact hp'

lemma getLast?_dropWhile_mem {p : Char → Bool} {l : List Char} {c : Char}
    (h : (l.dropWhile p).getLast? = some c) : l.getLast? = some c := by
  induction l with
  | nil => simp at h
  | cons a t ih =>
    rw [List.dropWhile_cons] at h
    by_cases hp : p a = true
    · simp only [hp, if_true] at h
      have ht := ih h
      cases t with
      | nil => simp at ht
      | cons b t2 => rw [List.getLast?_cons_cons]; exact ht
    · simpa only [hp, if_false] using h

lemma dropWhile_eq_self_of_head {p : Char → Bool} {l : List Char}
    (h : ∀ c, l.head? = some c → p c = false) : l.dropWhile p = l := by
  cases l with
  | nil => rfl
  | cons a t => rw [List.dropWhile_cons, h a rfl]; simp

lemma mem_of_mem_dropTrail {p : Char → Bool} {l : List Char} {c : Char}
    (h : c ∈ dropTrail p l) : c ∈ l := by
  unfold dropTrail at h
  rw [List.mem_reverse] at h
  have := mem_of_mem_dropWhile h
  rwa [List.mem_reverse] at this

lemma getLast?_dropTrail_not {p : Char → Bool} {l : List Char} {c : Char}
    (h : (dropTrail p l).getLast? = some c) : p c = false := by
  unfold dropTrail at h
  rw [List.getLast?_reverse] at h
  exact head?_dropWhile_not h

lemma head?_dropTrail_mem {p : Char → Bool} {l : List Char} {c : Char}
    (h : (dropTrail p l).head? = some c) : l.head? = some c := by
  unfold dropTrail at h
  rw [List.head?_reverse] at h
  have := getLast?_dropWhile_mem h
  rwa [List.getLast?_reverse] at this

lemma dropTrail_eq_self_of_getLast {p : Char → Bool} {l : List Char}
    (h : ∀ c, l.getLast? = some c → p c = false) : dropTrail p l = l := by
  unfold dropTrail
  rw [dropWhile_eq_self_of_head, List.reverse_reverse]
  intro c hc
  rw [List.head?_reverse] at hc
  exact h c hc

lemma map_eq_self_of {f : Char → Char} {l : List Char}
    (h : ∀ c ∈ l, f c = c) : l.map f = l := by
  induction l with
  | nil => rfl
  | cons a t ih =>
    rw [List.map_cons, h a (List.mem_cons_self a t),
      ih fun c hc => h c (List.mem_cons_of_mem a hc)]

/-! ## Lemmas on `collapseWs` and `collapseHyph` -/

lemma mem_collapseWs {l : List Char} {c : Char} (h : c ∈ collapseWs l) :
    c = '-' ∨ (c ∈ l ∧ jsWs c = false) := by
  induction l with
  | nil => simp [collapseWs] at h
  | cons a t ih =>
    cases t with
    | nil =>
      simp only [collapseWs] at h
      by_cases hw : jsWs a = true
      · rw [if_pos hw] at h
        left
        simpa using h
      · have hw' : jsWs a = false := Bool.not_eq_true _ ▸ hw
        rw [if_neg hw] at h
        right
        exact ⟨h, List.mem_singleton.mp h ▸ hw'⟩
    | cons d r =>
      simp only [collapseWs] at h
      by_cases hw : jsWs a = true
      · rw [if_pos hw] at h
        by_cases hd : jsWs d = true
        · rw [if_pos hd] at h
          rcases ih h with h1 | ⟨h2, h3⟩
          · exact Or.inl h1
          · exact Or.inr ⟨List.mem_cons_of_mem a h2, h3⟩
        · have hd' : jsWs d = false := Bool.not_eq_true _ ▸ hd
          rw [if_neg hd, List.mem_cons] at h
          rcases h with h1 | h1
          · exact Or.inl h1
          · rcases ih h1 with h2 | ⟨h3, h4⟩
            · exact Or.inl h2
            · exact Or.inr ⟨List.mem_cons_of_mem a h3, h4⟩
      · have hw' : jsWs a = false := Bool.not_eq_true _ ▸ hw
        rw [if_neg hw, List.mem_cons] at h
        rcases h with h1 | h1
        · exact Or.inr ⟨h1 ▸ List.mem_cons_self a (d :: r), h1 ▸ hw'⟩
        · rcases ih h1 with h2 | ⟨h3, h4⟩
          · exact Or.inl h2
          · exact Or.inr ⟨List.mem_cons_of_mem a h3, h4⟩

lemma collapseWs_eq_self {l : List Char} (h : ∀ c ∈ l, jsWs c = false) :
    collapseWs l = l := by
  induction l with
  | nil => rfl
  | cons a t ih =>
    cases t with
    | nil => simp [collapseWs, h a (List.mem_singleton.mpr rfl)]
    | cons d r =>
      simp only [collapseWs, h a (List.mem_cons_self a (d :: r)),
        Bool.false_eq_true, if_false]
      rw [ih fun c hc => h c (List.mem_cons_of_mem a hc)]

lemma mem_collapseHyph {l : List Char} {c : Char} (h : c ∈ collapseHyph l) :
    c ∈ l := by
  induction l with
  | nil => simp [collapseHyph] at h
  | cons a t ih =>
    cases t with
    | nil => simpa [collapseHyph] using h
    | cons d r =>
      simp only [collapseHyph] at h
      by_cases hb : (a == '-' && d == '-') = true
      · rw [if_pos hb] at h
        exact List.mem_cons_of_mem a (ih h)
      · have hb' := Bool.not_eq_true _ ▸ hb
        rw [if_neg hb, List.mem_cons] at h
        rcases h with h1 | h1
        · exact h1 ▸ List.mem_cons_self a (d :: r)
        · exact List.mem_cons_of_mem a (ih h1)

lemma head?_collapseHyph (l : List Char) : (collapseHyph l).head? = l.head? := by
  induction l with
  | nil => rfl
  | cons a t ih =>
    cases t with
    | nil => rfl
    | cons d r =>
      simp only [collapseHyph]
      by_cases hb : (a == '-' && d == '-') = true
      · rw [if_pos hb, ih]
        have : a = '-' ∧ d = '-' := by
          simpa [Bool.and_eq_true, beq_iff_eq] using hb
        simp [this.1, this.2]
      · rw [if_neg hb]
        rfl

lemma chain'_collapseHyph (l : List Char) :
    List.Chain' noDblHyph (collapseHyph l) := by
  induction l with
  | nil => exact List.chain'_nil
  | cons a t ih =>
    cases t with
    | nil => exact List.chain'_singleton a
    | cons d r =>
      simp only [collapseHyph]
      by_cases hb : (a == '-' && d == '-') = true
      · rw [if_pos hb]; exact ih
      · rw [if_neg hb]
        rw [List.chain'_cons']
        refine ⟨fun y hy => ?_, ih⟩
        rw [head?_collapseHyph, List.head?_cons] at hy
        have hyd : y = d := by
          have := hy
          simp only [Option.mem_def, Option.some.injEq] at this
          exact this.symm
        subst hyd
        intro hcon
        apply hb
        simp [Bool.and_eq_true, beq_iff_eq, hcon.1, hcon.2]

lemma collapseHyph_eq_self {l : List Char} (h : List.Chain' noDblHyph l) :
    collapseHyph l = l := by
  induction l with
  | nil => rfl
  | cons a t ih =>
    cases t with
    | nil => rfl
    | cons d r =>
      have hc := List.chain'_cons.mp h
      simp only [collapseHyph]
      have hb : (a == '-' && d == '-') = false := by
        rcases not_and_or.mp hc.1 with h1 | h1 <;>
          simp [Bool.and_eq_true, beq_iff_eq, h1]
      rw [if_neg (by simp [hb] : ¬((a == '-' && d == '-') = true)), ih hc.2]

lemma chain'_dropWhile {p : Char → Bool} {l : List Char}
    (h : List.Chain' noDblHyph l) : List.Chain' noDblHyph (l.dropWhile p) := by
  induction l with
  | nil => exact List.chain'_nil
  | cons a t ih =>
    rw [List.dropWhile_cons]
    by_cases hp : p a = true
    · rw [if_pos hp]
      exact ih h.tail
    · rw [if_neg hp]
      exact h

lemma chain'_noDbl_reverse {l : List Char} (h : List.Chain' noDblHyph l) :
    List.Chain' noDblHyph l.reverse := by
  rw [List.chain'_reverse]
  exact h.imp fun a b hab hcon => hab ⟨hcon.2, hcon.1⟩

lemma chain'_dropTrail {p : Char → Bool} {l : List Char}
    (h : List.Chain' noDblHyph l) : List.Chain' noDblHyph (dropTrail p l) := by
  unfold dropTrail
  exact chain'_noDbl_reverse (chain'_dropWhile (chain'_noDbl_reverse h))

/-! ## Characterization of the slug pipeline -/

lemma slugList_ok (l : List Char) : slugOk (slugList l) := by
  unfold slugList stripHyph
  set L2 := (trimWs (l.map jsLower)).filter keepChar with hL2
  set L4 := collapseHyph (collapseWs L2) with hL4
  refine ⟨?_, ?_, ?_, ?_⟩
  · intro c hc
    have hc4 : c ∈ L4 := mem_of_mem_dropWhile (mem_of_mem_dropTrail hc)
    have hc3 : c ∈ collapseWs L2 := mem_collapseHyph hc4
    rcases mem_collapseWs hc3 with h1 | ⟨h2, h3⟩
    · exact Or.inr h1
    · have hkeep : keepChar c = true := (List.mem_filter.mp h2).2
      have hup : isUpChar c = false := by
        have hmem : c ∈ trimWs (l.map jsLower) := (List.mem_filter.mp h2).1
        have hmem2 : c ∈ l.map jsLower := by
          rw [trimWs] at hmem
          exact mem_of_mem_dropWhile (mem_of_mem_dropTrail hmem)
        obtain ⟨a, _, rfl⟩ := List.mem_map.mp hmem2
        exact isUpChar_jsLower a
      simp only [keepChar, Bool.or_eq_true, h3] at hkeep
      rcases hkeep with (hw | hfalse) | hh
      · exact Or.inl ⟨hw, hup⟩
      · exact absurd hfalse (by simp)
      · exact Or.inr (by simpa using hh)
  · exact chain'_dropTrail (chain'_dropWhile (chain'_collapseHyph _))
  · intro c hc
    have h1 := head?_dropTrail_mem hc
    have h2 := head?_dropWhile_not h1
    simpa [isHyph] using h2
  · intro c hc
    have h2 := getLast?_dropTrail_not hc
    simpa [isHyph] using h2

lemma slugList_fix {l : List Char} (h : slugOk l) : slugList l = l := by
  obtain ⟨hchars, hchain, hhead, hlast⟩ := h
  have hup : ∀ c ∈ l, isUpChar c = false := by
    intro c hc
    rcases hchars c hc with ⟨_, h2⟩ | rfl
    · exact h2
    · decide
  have hws : ∀ c ∈ l, jsWs c = false := by
    intro c hc
    rcases hchars c hc with ⟨h1, _⟩ | rfl
    · exact jsWs_eq_false_of_wordChar h1
    · decide
  have hkeep : ∀ c ∈ l, keepChar c = true := by
    intro c hc
    rcases hchars c hc with ⟨h1, _⟩ | rfl
    · simp [keepChar, h1]
    · decide
  have hmap : l.map jsLower = l := map_eq_self_of fun c hc => jsLower_eq_self (hup c hc)
  have htrim : trimWs l = l := by
    rw [trimWs, dropWhile_eq_self_of_head, dropTrail_eq_self_of_getLast]
    · intro c hc
      obtain ⟨hne, hceq⟩ := List.mem_getLast?_eq_getLast (Option.mem_def.mpr hc)
      exact hceq ▸ hws _ (List.getLast_mem hne)
    · intro c hc
      cases l with
      | nil => simp at hc
      | cons a t =>
        rw [List.head?_cons, Option.some.injEq] at hc
        exact hc ▸ hws a (List.mem_cons_self a t)
  have hfilter : l.filter keepChar = l := List.filter_eq_self.mpr hkeep
  have hcw : collapseWs l = l := collapseWs_eq_self hws
  have hch : collapseHyph l = l := collapseHyph_eq_self hchain
  have hstrip : stripHyph l = l := by
    rw [stripHyph, dropWhile_eq_self_of_head, dropTrail_eq_self_of_getLast]
    · intro c hc
      simp [isHyph, hlast c hc]
    · intro c hc
      simp [isHyph, hhead c hc]
  rw [slugList, hmap, htrim, hfilter, hcw, hch, hstrip]

/-- C5: for every input string, `generateSlug` totally computes the
lowercase/trim/filter/collapse/strip pipeline, and its output contains
only lowercase word-characters and single hyphens (no two adjacent
hyphens), with no leading or trailing hyphen. -/
theorem generateSlug_output_spec (s : String) : slugOk (generateSlug s).data :=
  slugList_ok s.data

/-- Witness for C5 at a concrete input. -/
theorem generateSlug_output_spec_witness : slugOk (generateSlug "Hello World").data :=
  generateSlug_output_spec "Hello World"

/-- C10: `generateSlug` is idempotent. -/
theorem generateSlug_idem (s : String) :
    generateSlug (generateSlug s) = generateSlug s :=
  congrArg String.mk (slugList_fix (slugList_ok s.data))

/-- Witness for C10 at a concrete input. -/
theorem generateSlug_idem_witness :
    generateSlug (generateSlug "Hello World") = generateSlug "Hello World" :=
  generateSlug_idem "Hello World"

/-! ## Lemmas on `normalizeTime` -/

lemma matches24_iff_sem24 (l : List Char) : matches24 l = true ↔ sem24 l := by
  rcases l with _ | ⟨a, _ | ⟨b, _ | ⟨c, _ | ⟨d, _ | ⟨e, _ | ⟨f, rest⟩⟩⟩⟩⟩⟩
  · simp [matches24, sem24]
  · simp [matches24, sem24]
  · simp [matches24, sem24]
  · simp [matches24, sem24]
  · simp only [matches24, sem24, minOk, Bool.and_eq_true, beq_iff_eq,
      decide_eq_true_eq, isDig, digVal, List.cons.injEq, and_true]
    constructor
    · rintro ⟨⟨rfl, ha1, ha2⟩, ⟨hc1, hc2⟩, hd1, hd2⟩
      exact Or.inl ⟨a, c, d, ⟨rfl, rfl, rfl, rfl⟩, ⟨ha1, ha2⟩, ⟨by omega, by omega⟩,
        ⟨hd1, hd2⟩, by omega, by omega⟩
    · rintro (⟨h, m1, m2, ⟨rfl, rfl, rfl, rfl⟩, ⟨hb1, hb2⟩, ⟨hb3, hb4⟩, ⟨hb5, hb6⟩, hb7, hb8⟩ |
        ⟨h1, h2, m1, m2, heq, hrest⟩)
      · exact ⟨⟨rfl, hb1, hb2⟩, ⟨by omega, by omega⟩, hb5, hb6⟩
      · simp at heq
  · simp only [matches24, sem24, minOk, hhOk, Bool.and_eq_true, beq_iff_eq,
      decide_eq_true_eq, isDig, digVal, List.cons.injEq, and_true]
    constructor
    · rintro ⟨⟨rfl, hab⟩, ⟨hd1, hd2⟩, he1, he2⟩
      rcases hab with ⟨⟨ha1, ha2⟩, hb1, hb2⟩ | ⟨ha, hb1, hb2⟩ <;>
        exact Or.inr ⟨a, b, d, e, ⟨rfl, rfl, rfl, rfl, rfl⟩, ⟨by omega, by omega⟩,
          ⟨by omega, by omega⟩, ⟨by omega, by omega⟩, ⟨by omega, by omega⟩, by omega, by omega⟩
    · rintro (⟨h, m1, m2, heq, hrest⟩ |
        ⟨h1, h2, m1, m2, ⟨rfl, rfl, rfl, rfl, rfl⟩, ⟨h1a, h1b⟩, ⟨h2a, h2b⟩,
          ⟨m1a, m1b⟩, ⟨m2a, m2b⟩, hh23, hm59⟩)
      · simp at heq
      · exact ⟨⟨rfl, by omega⟩, ⟨by omega, by omega⟩, by omega, by omega⟩
  · simp [matches24, sem24]

lemma normalizeTime_of_matches24 {s : String}
    (h : matches24 (cleanTime s) = true) :
    normalizeTime s = .ok ⟨cleanTime s⟩ := by
  simp only [normalizeTime]
  rw [if_pos h]

/-- C2: `normalizeTime` trims and uppercases its input; a result matching
the 24-hour pattern `H[H]:MM` (hour in `[0,23]`, minute in `[0,59]`) is
returned as-is, without zero-padding (`"14:30"` and `"9:00"` are returned
unchanged); `"2:30 PM"` converts to `"14:30"` through the zero-padding
12-hour branch; an input matching neither pattern (`"25:00"`) fails with
the invalid-time-format error. -/
theorem normalizeTime_spec :
    (∀ l : List Char, matches24 l = true ↔ sem24 l) ∧
    (∀ s : String, sem24 (cleanTime s) → normalizeTime s = .ok ⟨cleanTime s⟩) ∧
    normalizeTime "14:30" = .ok "14:30" ∧
    normalizeTime "9:00" = .ok "9:00" ∧
    normalizeTime "2:30 PM" = .ok "14:30" ∧
    normalizeTime "25:00" = .error "Invalid time format. Use HH:MM or HH:MM AM/PM" :=
  ⟨matches24_iff_sem24,
   fun s h => normalizeTime_of_matches24 ((matches24_iff_sem24 (cleanTime s)).mpr h),
   rfl, rfl, rfl, rfl⟩

/-- Witness for C2: the 24-hour clause applied at `"14:30"`. -/
theorem normalizeTime_spec_witness :
    normalizeTime "14:30" = .ok ⟨cleanTime "14:30"⟩ :=
  normalizeTime_spec.2.1 "14:30"
    ((normalizeTime_spec.1 (cleanTime "14:30")).mp (by decide))

/-- C9: the 12-hour branch accepts any one- or two-digit hour without a
`[1,12]` range check; on `"13:30 PM"` the function succeeds with
`"25:30"`, which is not a valid canonical 24-hour time. -/
theorem normalizeTime_acceptsOutOfRangeHour :
    normalizeTime "13:30 PM" = .ok "25:30" ∧
    specCanonicalHHMM "25:30".data = false ∧
    (∀ c1 c2 m1 m2 : Char, isDig c1 = true → isDig c2 = true →
      isDig m1 = true → isDig m2 = true →
      match12 [c1, c2, ':', m1, m2, 'P', 'M'] =
        some (10 * digVal c1 + digVal c2, m1, m2, true)) := by
  refine ⟨rfl, by decide, ?_⟩
  intro c1 c2 m1 m2 h1 h2 h3 h4
  simp only [match12, match12Tail, h1, h2, h3, h4, List.dropWhile,
    show jsWs 'P' = false from rfl, show jsWs 'M' = false from rfl]
  rfl

/-- Witness for C9: the 12-hour match applied at the digits of
`"13:30 PM"`. -/
theorem normalizeTime_acceptsOutOfRangeHour_witness :
    match12 ['1', '3', ':', '3', '0', 'P', 'M'] =
      some (10 * digVal '1' + digVal '3', '3', '0', true) :=
  normalizeTime_acceptsOutOfRangeHour.2.2 '1' '3' '3' '0'
    (by decide) (by decide) (by decide) (by decide)

/-! ## Lemmas on `normalizeDate` -/

/-- C3: `normalizeDate` parses its input with the (modelled)
general-purpose date parser and fails with the invalid-date error exactly
when no valid calendar date results (`"2025-13-40"` fails); on success it
returns only the UTC calendar date in `YYYY-MM-DD` form
(`"June 13, 2025"` yields `"2025-06-13"`). -/
theorem normalizeDate_spec :
    (∀ s : String, normalizeDate s = .error "Invalid date format" ↔ jsParseDate s = none) ∧
    (∀ s y m d, jsParseDate s = some (y, m, d) →
      normalizeDate s = .ok ⟨formatIsoDate y m d⟩) ∧
    normalizeDate "2025-13-40" = .error "Invalid date format" ∧
    normalizeDate "June 13, 2025" = .ok "2025-06-13" := by
  refine ⟨?_, ?_, rfl, rfl⟩
  · intro s
    unfold normalizeDate
    cases h : jsParseDate s with
    | none => simp
    | some r =>
      obtain ⟨y, m, d⟩ := r
      simp
  · intro s y m d h
    unfold normalizeDate
    rw [h]

/-- Witness for C3: the success clause applied at `"2025-06-13"`. -/
theorem normalizeDate_spec_witness :
    normalizeDate "2025-06-13" = .ok ⟨formatIsoDate 2025 6 13⟩ :=
  normalizeDate_spec.2.1 "2025-06-13" 2025 6 13 (by decide)

/-! ## Frame and atomicity properties of the save pipeline -/

/-- C4: a save with title/date/time unmodified (e.g. a description-only
update) returns the record with slug, date and time byte-identical; in
general the hook regenerates the slug exactly when the title is modified
and re-normalizes date/time exactly when the respective field is
modified; the persisted record of a description-only update is the input
record itself. -/
theorem eventFrame_spec :
    (∀ doc : EventRec, eventPreSaveHook doc false false false = .ok doc) ∧
    (∀ doc mT mD mTi d', eventPreSaveHook doc mT mD mTi = .ok d' →
      (mT = false → d'.slug = doc.slug) ∧
      (mD = false → d'.date = doc.date) ∧
      (mTi = false → d'.time = doc.time) ∧
      (mT = true → d'.slug = generateSlug doc.title)) ∧
    (∀ store doc store', saveEvent store doc false false false = (store', none) →
      store' = store ++ [doc]) := by
  refine ⟨fun doc => rfl, ?_, ?_⟩
  · intro doc mT mD mTi d' h
    simp only [eventPreSaveHook] at h
    set doc1 := if mT then { doc with slug := generateSlug doc.title } else doc with hdoc1
    cases hd : (if mD then normalizeDate doc1.date else .ok doc1.date) with
    | error e => rw [hd] at h; simp at h
    | ok newDate =>
      rw [hd] at h
      cases ht : (if mTi then normalizeTime doc1.time else .ok doc1.time) with
      | error e => rw [ht] at h; simp at h
      | ok newTime =>
        rw [ht] at h
        simp only [Except.ok.injEq] at h
        subst h
        refine ⟨?_, ?_, ?_, ?_⟩
        · intro hmT
          simp [hdoc1, hmT]
        · intro hmD
          rw [hmD, if_neg (by simp)] at hd
          simp only [Except.ok.injEq] at hd
          simp [← hd, hdoc1]
          split <;> rfl
        · intro hmTi
          rw [hmTi, if_neg (by simp)] at ht
          simp only [Except.ok.injEq] at ht
          simp [← ht, hdoc1]
          split <;> rfl
        · intro hmT
          simp [hdoc1, hmT]
  · intro store doc store' h
    simp only [saveEvent] at h
    cases hv : validateEvent doc with
    | error e => rw [hv] at h; simp at h
    | ok u =>
      rw [hv] at h
      rw [show eventPreSaveHook doc false false false = .ok doc from rfl] at h
      simp only [Prod.mk.injEq] at h
      exact h.1.symm

/-- Witness for C4: a description-only save of a concrete record. -/
theorem eventFrame_spec_witness :
    eventPreSaveHook
      ⟨"Tech Conference", "tech-conference", "A fine conference", "2025-06-13", "09:00"⟩
      false false false =
    .ok ⟨"Tech Conference", "tech-conference", "A fine conference", "2025-06-13", "09:00"⟩ :=
  eventFrame_spec.1 ⟨"Tech Conference", "tech-conference", "A fine conference", "2025-06-13", "09:00"⟩

/-- C6: every error produced by the validate/normalize pipeline of an
Event or a Booking save (field validation, date/time normalization,
dangling reference) aborts the write before persistence: whenever a save
reports an error, the stored collection is exactly the prior one. -/
theorem abortBeforePersist_spec :
    (∀ store doc mT mD mTi store' e,
      saveEvent store doc mT mD mTi = (store', some e) → store' = store) ∧
    (∀ events bookings b isNew mEv bookings' e n,
      saveBooking events bookings b isNew mEv = (bookings', some e, n) →
      bookings' = bookings) := by
  constructor
  · intro store doc mT mD mTi store' e h
    simp only [saveEvent] at h
    cases hv : validateEvent doc with
    | error e2 =>
      rw [hv] at h
      simp only [Prod.mk.injEq] at h
      exact h.1.symm
    | ok u =>
      rw [hv] at h
      cases hh : eventPreSaveHook doc mT mD mTi with
      | error e2 =>
        rw [hh] at h
        simp only [Prod.mk.injEq] at h
        exact h.1.symm
      | ok d =>
        rw [hh] at h
        simp at h
  · intro events bookings b isNew mEv bookings' e n h
    simp only [saveBooking] at h
    cases hv : validateBooking b with
    | error e2 =>
      rw [hv] at h
      simp only [Prod.mk.injEq] at h
      exact h.1.symm
    | ok br =>
      rw [hv] at h
      dsimp only at h
      rcases hr : bookingRefCheck events br.eventId isNew mEv with ⟨res, n2⟩
      rw [hr] at h
      cases res with
      | error e2 =>
        simp only [Prod.mk.injEq] at h
        exact h.1.symm
      | ok u =>
        simp at h

/-- Witness for C6: an Event save failing title validation leaves the
(empty) store unchanged. -/
theorem abortBeforePersist_spec_witness :
    saveEvent [] ⟨"ab", "x", "a fine description", "2025-06-13", "9:00"⟩ true true true =
      ([], some "Title must be at least 3 characters") ∧
    ([] : List EventRec) = [] :=
  ⟨by decide,
   abortBeforePersist_spec.1 [] ⟨"ab", "x", "a fine description", "2025-06-13", "9:00"⟩
     true true true [] "Title must be at least 3 characters" (by decide)⟩

/-- C1: when a Booking is created (or its `eventId` modified), the hook
performs exactly one point lookup of the Event store; if the Event is
missing, the save fails with the dangling-reference error and the Booking
collection is unchanged (same count); when the document is not new and
`eventId` is unmodified, no lookup is performed and the check passes. -/
theorem bookingDangling_spec :
    (∀ events bookings b isNew mEv br,
      validateBooking b = .ok br → (isNew || mEv) = true →
      events.contains br.eventId = false →
      saveBooking events bookings b isNew mEv =
        (bookings, some ("Event with ID " ++ toString br.eventId ++ " does not exist"), 1) ∧
      (saveBooking events bookings b isNew mEv).1.length = bookings.length) ∧
    (∀ events eid, bookingRefCheck events eid false false = (.ok (), 0)) := by
  constructor
  · intro events bookings b isNew mEv br hv hflag hmiss
    have hsave : saveBooking events bookings b isNew mEv =
        (bookings, some ("Event with ID " ++ toString br.eventId ++ " does not exist"), 1) := by
      simp only [saveBooking]
      rw [hv]
      dsimp only
      rw [show bookingRefCheck events br.eventId isNew mEv =
        (.error ("Event with ID " ++ toString br.eventId ++ " does not exist"), 1) from by
          simp only [bookingRefCheck]
          rw [if_pos hflag, hmiss]
          simp]
    exact ⟨hsave, by rw [hsave]⟩
  · intro events eid
    simp [bookingRefCheck]

/-- Witness for C1: a Booking pointing to an absent Event on an empty
store. -/
theorem bookingDangling_spec_witness :
    saveBooking [] [] ⟨some 7, some "a@b.c"⟩ true false =
      ([], some ("Event with ID " ++ toString (7 : Nat) ++ " does not exist"), 1) ∧
    (saveBooking [] [] ⟨some 7, some "a@b.c"⟩ true false).1.length =
      ([] : List BookingRec).length :=
  bookingDangling_spec.1 [] [] ⟨some 7, some "a@b.c"⟩ true false ⟨7, "a@b.c"⟩
    rfl (by decide) (by decide)

/-! ## Lemmas on the email test -/

lemma midDot_iff (l : List Char) :
    midDot l = true ↔ ∃ b c2, l = b ++ '.' :: c2 ∧ b ≠ [] ∧ c2 ≠ [] := by
  induction l with
  | nil =>
    simp only [midDot, Bool.false_eq_true, false_iff, not_exists]
    rintro b c2 ⟨heq, hb, hc⟩
    cases b with
    | nil => exact hb rfl
    | cons b0 bs => simp at heq
  | cons x t ih =>
    cases t with
    | nil =>
      simp only [midDot, Bool.false_eq_true, false_iff, not_exists]
      rintro b c2 ⟨heq, hb, hc⟩
      cases b with
      | nil => exact hb rfl
      | cons b0 bs =>
        simp only [List.cons_append, List.cons.injEq] at heq
        rcases heq with ⟨rfl, heq2⟩
        cases bs with
        | nil => simp at heq2
        | cons b1 bs2 => simp at heq2
    | cons d t2 =>
      cases t2 with
      | nil =>
        simp only [midDot, Bool.false_eq_true, false_iff, not_exists]
        rintro b c2 ⟨heq, hb, hc⟩
        cases b with
        | nil => exact hb rfl
        | cons b0 bs =>
          simp only [List.cons_append, List.cons.injEq] at heq
          rcases heq with ⟨rfl, heq2⟩
          cases bs with
          | nil =>
            simp only [List.nil_append, List.cons.injEq] at heq2
            exact hc heq2.2.symm
          | cons b1 bs2 =>
            simp only [List.cons_append, List.cons.injEq] at heq2
            rcases heq2 with ⟨rfl, heq3⟩
            cases bs2 with
            | nil => simp at heq3
            | cons b2 bs3 => simp at heq3
      | cons c rest =>
        simp only [midDot, Bool.or_eq_true, beq_iff_eq]
        constructor
        · rintro (rfl | hm)
          · exact ⟨[x], c :: rest, rfl, by simp, by simp⟩
          · obtain ⟨b, c2, heq, hb, hc⟩ := ih.mp hm
            exact ⟨x :: b, c2, by rw [List.cons_append, ← heq], by simp, hc⟩
        · rintro ⟨b, c2, heq, hb, hc⟩
          cases b with
          | nil => exact absurd rfl hb
          | cons b0 bs =>
            simp only [List.cons_append, List.cons.injEq] at heq
            rcases heq with ⟨rfl, heq2⟩
            cases bs with
            | nil =>
              simp only [List.nil_append, List.cons.injEq] at heq2
              exact Or.inl heq2.1
            | cons b1 bs2 =>
              simp only [List.cons_append, List.cons.injEq] at heq2
              rcases heq2 with ⟨rfl, heq3⟩
              exact Or.inr (ih.mpr ⟨d :: bs2, c2, by rw [List.cons_append, ← heq3], by simp, hc⟩)

lemma dropWhile_atom_append {a rest : List Char}
    (ha : ∀ c ∈ a, atomChar c = true) :
    (a ++ '@' :: rest).dropWhile atomChar = '@' :: rest ∧
    (a ++ '@' :: rest).takeWhile atomChar = a := by
  induction a with
  | nil =>
    constructor
    · rw [List.nil_append, List.dropWhile_cons]
      simp [atomChar, jsWs]
    · rw [List.nil_append, List.takeWhile_cons]
      simp [atomChar, jsWs]
  | cons a0 as ih =>
    have h0 : atomChar a0 = true := ha a0 (List.mem_cons_self a0 as)
    have ih2 := ih fun c hc => ha c (List.mem_cons_of_mem a0 hc)
    constructor
    · rw [List.cons_append, List.dropWhile_cons, h0]
      simpa using ih2.1
    · rw [List.cons_append, List.takeWhile_cons, h0]
      simpa using ih2.2

lemma emailTest_iff_semEmail (l : List Char) : emailTest l = true ↔ semEmail l := by
  constructor
  · intro h
    unfold emailTest at h
    cases hd : l.dropWhile atomChar with
    | nil => rw [hd] at h; simp at h
    | cons c rest =>
      rw [hd] at h
      simp only [Bool.and_eq_true, beq_iff_eq, Bool.not_eq_true'] at h
      obtain ⟨⟨⟨rfl, hne⟩, hall⟩, hdot⟩ := h
      refine ⟨l.takeWhile atomChar, rest, ?_, ?_, ?_, ?_, ?_⟩
      · rw [← hd, List.takeWhile_append_dropWhile]
      · intro hnil
        rw [hnil] at hne
        simp at hne
      · exact fun c hc => List.mem_takeWhile_imp hc
      · exact fun c hc => (List.all_eq_true.mp hall) c hc
      · exact (midDot_iff rest).mp hdot
  · rintro ⟨a, rest, rfl, hane, ha, hrest, hdotsplit⟩
    obtain ⟨hdw, htw⟩ := dropWhile_atom_append ha
    unfold emailTest
    rw [hdw, htw]
    simp only [Bool.and_eq_true]
    refine ⟨⟨⟨rfl, ?_⟩, ?_⟩, ?_⟩
    · cases a with
      | nil => exact absurd rfl hane
      | cons a0 as => rfl
    · exact List.all_eq_true.mpr fun c hc => hrest c hc
    · exact (midDot_iff rest).mpr hdotsplit

/-- C8: a Booking write requires `eventId` and `email` present and the
trimmed/lowercased email to match `local@domain.tld` (no whitespace
anywhere, at least one dot with nonempty parts inside the domain
portion); the email regex is characterized semantically, every violation
produces one of the field-validation error messages, and a validation
error makes the save fail without touching the collection or the Event
store. -/
theorem bookingFieldValidation_spec :
    (∀ l : List Char, emailTest l = true ↔ semEmail l) ∧
    (∀ b : BookingInput, (∃ br, validateBooking b = .ok br) ↔
      (∃ eid e, b.eventId = some eid ∧ b.email = some e ∧
        emailTest (canonEmail e).data = true)) ∧
    (∀ b msg, validateBooking b = .error msg →
      msg = "Event ID is required" ∨ msg = "Email is required" ∨
      msg = "Please provide a valid email address") ∧
    (∀ events bookings b isNew mEv msg, validateBooking b = .error msg →
      saveBooking events bookings b isNew mEv = (bookings, some msg, 0)) := by
  refine ⟨emailTest_iff_semEmail, ?_, ?_, ?_⟩
  · rintro ⟨oid, oe⟩
    cases oid with
    | none => simp [validateBooking]
    | some eid =>
      cases oe with
      | none => simp [validateBooking]
      | some e =>
        by_cases he : emailTest (canonEmail e).data = true
        · simp [validateBooking, he]
        · simp [validateBooking, he]
  · rintro ⟨oid, oe⟩ msg h
    cases oid with
    | none =>
      simp only [validateBooking, Except.error.injEq] at h
      exact Or.inl h.symm
    | some eid =>
      cases oe with
      | none =>
        simp only [validateBooking, Except.error.injEq] at h
        exact Or.inr (Or.inl h.symm)
      | some e =>
        simp only [validateBooking] at h
        by_cases he : emailTest (canonEmail e).data = true
        · rw [if_pos he] at h
          simp at h
        · rw [if_neg he] at h
          simp only [Except.error.injEq] at h
          exact Or.inr (Or.inr h.symm)
  · intro events bookings b isNew mEv msg h
    simp only [saveBooking]
    rw [h]

/-- Witness for C8: a Booking missing both required fields fails with the
required-field error and leaves the (empty) collection unchanged. -/
theorem bookingFieldValidation_spec_witness :
    saveBooking [] [] ⟨none, none⟩ true false =
      ([], some "Event ID is required", 0) :=
  bookingFieldValidation_spec.2.2.2 [] [] ⟨none, none⟩ true false
    "Event ID is required" rfl

/-! ## Shape of stored date and time values -/

lemma isDig_digitChar {n : Nat} (h : n < 10) : isDig (Nat.digitChar n) = true := by
  interval_cases n <;> decide

lemma isDig_digitChar_mod (n : Nat) : isDig (Nat.digitChar (n % 10)) = true :=
  isDig_digitChar (Nat.mod_lt _ (by omega))

lemma isDig_zero : isDig '0' = true := by decide

lemma isoDateShape_formatIsoDate (y m d : Nat) :
    isoDateShape (formatIsoDate y m d) = true := by
  simp [formatIsoDate, pad4, pad2, isoDateShape, isDig_digitChar_mod]

lemma normalizeDate_ok_shape {s : String} {out : String}
    (h : normalizeDate s = .ok out) : isoDateShape out.data = true := by
  unfold normalizeDate at h
  cases hp : jsParseDate s with
  | none => rw [hp] at h; simp at h
  | some r =>
    obtain ⟨y, m, d⟩ := r
    rw [hp] at h
    simp only [Except.ok.injEq] at h
    rw [← h]
    exact isoDateShape_formatIsoDate y m d

lemma looseTimeShape_of_matches24 {l : List Char} (h : matches24 l = true) :
    looseTimeShape l = true := by
  rcases l with _ | ⟨a, _ | ⟨b, _ | ⟨c, _ | ⟨d, _ | ⟨e, _ | ⟨f, rest⟩⟩⟩⟩⟩⟩
  · simp [matches24] at h
  · simp [matches24] at h
  · simp [matches24] at h
  · simp [matches24] at h
  · simp only [matches24, minOk, isDig, Bool.and_eq_true, beq_iff_eq,
      decide_eq_true_eq] at h
    obtain ⟨⟨rfl, ha⟩, hc, hd⟩ := h
    simp only [looseTimeShape, isDig, Bool.and_eq_true, beq_iff_eq, decide_eq_true_eq]
    refine ⟨⟨⟨trivial, ?_⟩, ?_⟩, ?_⟩ <;> omega
  · simp only [matches24, minOk, hhOk, isDig, Bool.and_eq_true, beq_iff_eq,
      decide_eq_true_eq] at h
    obtain ⟨⟨rfl, hab⟩, hd, he⟩ := h
    simp only [looseTimeShape, isDig, Bool.and_eq_true, beq_iff_eq, decide_eq_true_eq]
    refine ⟨⟨⟨⟨trivial, ?_⟩, ?_⟩, ?_⟩, ?_⟩ <;> omega
  · simp [matches24] at h

lemma match12Tail_some {h : Nat} {l : List Char} {h' : Nat} {m1 m2 : Char}
    {pm : Bool} (hm : match12Tail h l = some (h', m1, m2, pm)) :
    h' = h ∧ isDig m1 = true ∧ isDig m2 = true := by
  rcases l with _ | ⟨c, _ | ⟨d, _ | ⟨e, rest⟩⟩⟩ <;> simp only [match12Tail] at hm
  · exact absurd hm (by simp)
  · exact absurd hm (by simp)
  · exact absurd hm (by simp)
  · by_cases hc : (c == ':' && isDig d && isDig e) = true
    · rw [if_pos hc] at hm
      simp only [Bool.and_eq_true] at hc
      by_cases ham : (rest.dropWhile jsWs == ['A', 'M']) = true
      · rw [if_pos ham] at hm
        simp only [Option.some.injEq, Prod.mk.injEq] at hm
        exact ⟨hm.1.symm, hm.2.1 ▸ hc.1.2, hm.2.2.1 ▸ hc.2⟩
      · rw [if_neg ham] at hm
        by_cases hpm : (rest.dropWhile jsWs == ['P', 'M']) = true
        · rw [if_pos hpm] at hm
          simp only [Option.some.injEq, Prod.mk.injEq] at hm
          exact ⟨hm.1.symm, hm.2.1 ▸ hc.1.2, hm.2.2.1 ▸ hc.2⟩
        · rw [if_neg hpm] at hm
          simp at hm
    · rw [if_neg hc] at hm
      simp at hm

lemma match12_some {l : List Char} {h : Nat} {m1 m2 : Char} {pm : Bool}
    (hm : match12 l = some (h, m1, m2, pm)) :
    isDig m1 = true ∧ isDig m2 = true ∧ h ≤ 99 := by
  rcases l with _ | ⟨c1, _ | ⟨c2, rest⟩⟩ <;> simp only [match12] at hm
  · exact absurd hm (by simp)
  · exact absurd hm (by simp)
  · by_cases h1 : isDig c1 = true
    · rw [if_pos h1] at hm
      have hb1 : 48 ≤ c1.toNat ∧ c1.toNat ≤ 57 := of_decide_eq_true h1
      by_cases h2 : isDig c2 = true
      · rw [if_pos h2] at hm
        have hb2 : 48 ≤ c2.toNat ∧ c2.toNat ≤ 57 := of_decide_eq_true h2
        obtain ⟨hh, hd1, hd2⟩ := match12Tail_some hm
        exact ⟨hd1, hd2, by simp only [hh, digVal]; omega⟩
      · rw [if_neg h2] at hm
        obtain ⟨hh, hd1, hd2⟩ := match12Tail_some hm
        exact ⟨hd1, hd2, by simp only [hh, digVal]; omega⟩
    · rw [if_neg h1] at hm
      simp at hm

lemma looseTimeShape_padTwo {n : Nat} (hn : n < 1000) {m1 m2 : Char}
    (h1 : isDig m1 = true) (h2 : isDig m2 = true) :
    looseTimeShape (padTwo n ++ ':' :: [m1, m2]) = true := by
  by_cases h10 : n < 10
  · have hp : padTwo n = ['0', Nat.digitChar n] := by
      simp [padTwo, natDigits, h10, List.replicate]
    rw [hp]
    simp [looseTimeShape, h1, h2, isDig_digitChar h10, isDig_zero]
  · by_cases h100 : n < 100
    · have hp : padTwo n = [Nat.digitChar (n / 10), Nat.digitChar (n % 10)] := by
        simp [padTwo, natDigits, h10, h100, List.replicate]
      rw [hp]
      have : n / 10 < 10 := by omega
      simp [looseTimeShape, h1, h2, isDig_digitChar this, isDig_digitChar_mod]
    · have hp : padTwo n =
          [Nat.digitChar (n / 100), Nat.digitChar (n / 10 % 10), Nat.digitChar (n % 10)] := by
        simp [padTwo, natDigits, h10, h100, List.replicate]
      rw [hp]
      have : n / 100 < 10 := by omega
      simp [looseTimeShape, h1, h2, isDig_digitChar this, isDig_digitChar_mod]

lemma normalizeTime_ok_shape {s : String} {out : String}
    (h : normalizeTime s = .ok out) : looseTimeShape out.data = true := by
  simp only [normalizeTime] at h
  by_cases h24 : matches24 (cleanTime s) = true
  · rw [if_pos h24] at h
    simp only [Except.ok.injEq] at h
    rw [← h]
    exact looseTimeShape_of_matches24 h24
  · rw [if_neg h24] at h
    cases hm : match12 (cleanTime s) with
    | none => rw [hm] at h; simp at h
    | some r =>
      obtain ⟨hh, m1, m2, pm⟩ := r
      rw [hm] at h
      simp only [Except.ok.injEq] at h
      obtain ⟨hd1, hd2, hb⟩ := match12_some hm
      rw [← h]
      refine looseTimeShape_padTwo ?_ hd1 hd2
      split
      · omega
      · split <;> omega

/-- Concrete Event input for the canonical-time counterexample: a valid
record whose time `"9:00"` already matches the 24-hour pattern. -/
def evQuirk : EventRec :=
  ⟨"Tech Conference", "", "A fine conference about tech", "2025-06-13", "9:00"⟩

/-- The record the store holds after saving `evQuirk`. -/
def evQuirkStored : EventRec :=
  ⟨"Tech Conference", "tech-conference", "A fine conference about tech",
   "2025-06-13", "9:00"⟩

/-- Counterexample to C7: `evQuirk` is accepted for persistence, but its
stored time is `"9:00"` — not the canonical zero-padded 24-hour `HH:MM`
shape — and it is stored exactly as entered. -/
theorem canonicalTime_counterexample :
    saveEvent [] evQuirk true true true = ([evQuirkStored], none) ∧
    evQuirkStored.time = evQuirk.time ∧
    specCanonicalHHMM evQuirkStored.time.data = false := by
  refine ⟨by decide, rfl, by decide⟩

/-- C7 as amended: for every Event accepted for persistence with date and
time modified, the stored date is ISO `YYYY-MM-DD`; the stored time is a
one- to three-digit hour, `:` and two digits, but not always canonical
`HH:MM`: an input already matching the 24-hour pattern is stored exactly
as entered after trim/uppercase (hence possibly with an unpadded
single-digit hour). -/
theorem storedDateTimeShape_spec :
    ∀ store doc mT store', saveEvent store doc mT true true = (store', none) →
    ∃ d, store' = store ++ [d] ∧ isoDateShape d.date.data = true ∧
      looseTimeShape d.time.data = true ∧
      (matches24 (cleanTime doc.time) = true → d.time = ⟨cleanTime doc.time⟩) := by
  intro store doc mT store' h
  simp only [saveEvent] at h
  cases hv : validateEvent doc with
  | error e => rw [hv] at h; simp at h
  | ok u =>
    rw [hv] at h
    cases hh : eventPreSaveHook doc mT true true with
    | error e => rw [hh] at h; simp at h
    | ok d =>
      rw [hh] at h
      simp only [Prod.mk.injEq] at h
      refine ⟨d, h.1.symm, ?_, ?_, ?_⟩
      · simp only [eventPreSaveHook, if_pos] at hh
        set doc1 := if mT then { doc with slug := generateSlug doc.title } else doc
        cases hd : normalizeDate doc1.date with
        | error e => rw [hd] at hh; simp at hh
        | ok newDate =>
          rw [hd] at hh
          cases ht : normalizeTime doc1.time with
          | error e => rw [ht] at hh; simp at hh
          | ok newTime =>
            rw [ht] at hh
            simp only [Except.ok.injEq] at hh
            rw [← hh]
            exact normalizeDate_ok_shape hd
      · simp only [eventPreSaveHook, if_pos] at hh
        set doc1 := if mT then { doc with slug := generateSlug doc.title } else doc
        cases hd : normalizeDate doc1.date with
        | error e => rw [hd] at hh; simp at hh
        | ok newDate =>
          rw [hd] at hh
          cases ht : normalizeTime doc1.time with
          | error e => rw [ht] at hh; simp at hh
          | ok newTime =>
            rw [ht] at hh
            simp only [Except.ok.injEq] at hh
            rw [← hh]
            exact normalizeTime_ok_shape ht
      · intro h24
        simp only [eventPreSaveHook, if_pos] at hh
        set doc1 := if mT then { doc with slug := generateSlug doc.title } else doc with hdoc1
        have hsame : doc1.time = doc.time := by
          rw [hdoc1]; split <;> rfl
        cases hd : normalizeDate doc1.date with
        | error e => rw [hd] at hh; simp at hh
        | ok newDate =>
          rw [hd] at hh
          cases ht : normalizeTime doc1.time with
          | error e => rw [ht] at hh; simp at hh
          | ok newTime =>
            rw [ht] at hh
            simp only [Except.ok.injEq] at hh
            rw [← hh]
            rw [hsame, normalizeTime_of_matches24 h24] at ht
            simp only [Except.ok.injEq] at ht
            exact ht.symm

/-- Witness for the amended C7 at the counterexample input. -/
theorem storedDateTimeShape_spec_witness :
    ∃ d, [evQuirkStored] = ([] : List EventRec) ++ [d] ∧
      isoDateShape d.date.data = true ∧ looseTimeShape d.time.data = true ∧
      (matches24 (cleanTime evQuirk.time) = true → d.time = ⟨cleanTime evQuirk.time⟩) :=
  storedDateTimeShape_spec [] evQuirk true [evQuirkStored] (by decide)
